import Mathlib

/-!
# Verification of `collect_gui.py`'s `collect_files_content_gui`

Shallow embedding of the file-collection routine of the CODE_Collector
repository.  Python strings are modelled as `List Char`; the file system,
the decode outcome of each file and the possibility of write failures are
modelled by an explicit environment (`Env`).  A run is modelled as the
list of observable events it produces: log-callback calls, progress-callback
calls, successful writes to the output file, and the successful opening of
the output file.  Floating-point arithmetic in the progress computation
`int((processed / total) * 100)` is idealised as exact rational truncation,
i.e. natural-number division `processed * 100 / total`.
-/

namespace CollectGui

/-! ## Python string primitives on `List Char` -/

/-- The ASCII whitespace characters stripped by Python's `str.strip()`. -/
def isPySpace (c : Char) : Bool :=
  c = ' ' || c = '\t' || c = '\n' || c = '\x0d' || c = '\x0b' || c = '\x0c'

/-- Python `str.strip()`: drop whitespace from both ends. -/
def pyStrip (l : List Char) : List Char :=
  ((l.dropWhile isPySpace).reverse.dropWhile isPySpace).reverse

/-- Python `s.split('|')`: split on every occurrence of `'|'`; the empty
string splits to `[""]`. -/
def splitPipe : List Char → List (List Char)
  | [] => [[]]
  | c :: cs =>
    if c = '|' then [] :: splitPipe cs
    else
      match splitPipe cs with
      | t :: ts => (c :: t) :: ts
      | [] => [[c]]

/-- The cleaned user tokens:
`[ext.strip() for ext in extensions_str.split('|') if ext.strip()]`. -/
def cleanExtensions (s : List Char) : List (List Char) :=
  (((splitPipe s).map pyStrip)).filter (fun t => t ≠ [])

/-- Per-token normalisation: keep the token if it starts with a dot,
otherwise prepend a dot (the code's conditional f-string). -/
def normDot (e : List Char) : List Char :=
  if e.head? = some '.' then e else '.' :: e

/-- The normalised target extensions
(`tuple(f".{ext}" if not ext.startswith('.') else ext for ext in extensions)`). -/
def parseExtensions (s : List Char) : List (List Char) :=
  (cleanExtensions s).map normDot

/-! ## Environment: file system, decode outcomes, write failures -/

/-- The outcome of reading one file's content, covering the code's
`try open(utf-8-sig) / except UnicodeDecodeError: try open(latin-1) /
except` ladder.  `utf8 c`: the UTF-8 read succeeds with content `c`.
`latin1 c`: UTF-8 raises `UnicodeDecodeError` and the Latin-1 read
succeeds with content `c`.  `latin1Fail e`: UTF-8 raises
`UnicodeDecodeError` and the Latin-1 read also raises, with message `e`.
`otherFail e`: the UTF-8 open/read raises a non-Unicode exception `e`. -/
inductive ReadResult
  | utf8 (content : List Char)
  | latin1 (content : List Char)
  | latin1Fail (err : List Char)
  | otherFail (err : List Char)
deriving DecidableEq, Repr

/-- One regular file discovered by `os.walk`: its path relative to the
root (separators already normalised to `/`), its bare filename (used by
the `filename.endswith(target_extensions)` filter), and its read
outcome. -/
structure FileEntry where
  relPath : List Char
  name : List Char
  read : ReadResult
deriving DecidableEq, Repr

/-- The environment of one run: whether `os.path.isdir(root_dir)` holds,
the regular files enumerated by `os.walk(root_dir)` in traversal order,
whether `open(output_file, 'w')` succeeds (with the exception message if
not), the message carried by a write failure, and a write budget —
`none` means every write succeeds, `some k` means the first `k` writes
succeed and every later write raises (e.g. disk full). -/
structure Env where
  isdir : Bool
  files : List FileEntry
  openOk : Bool
  openErr : List Char
  writeErr : List Char
  budget : Option Nat
deriving DecidableEq, Repr

/-! ## Observable events -/

/-- An observable event of a run: a `log_callback` call, a
`progress_callback` call, a successful `outfile.write`, or the successful
opening of the output file (which truncates it). -/
inductive Event
  | log (msg : List Char)
  | progress (v : Int)
  | write (s : List Char)
  | openOut
deriving DecidableEq, Repr

def Event.isProgress : Event → Bool
  | .progress _ => true
  | _ => false

def Event.isWrite : Event → Bool
  | .write _ => true
  | _ => false

/-- The values passed to `progress_callback`, in order. -/
def progressValues (evs : List Event) : List Int :=
  evs.filterMap fun e =>
    match e with
    | .progress v => some v
    | _ => none

/-- The chunks successfully written to the output file, in order. -/
def writeChunks (evs : List Event) : List (List Char) :=
  evs.filterMap fun e =>
    match e with
    | .write s => some s
    | _ => none

/-- The content of the output file after the run (concatenation of the
successful writes). -/
def outputOf (evs : List Event) : List Char :=
  (writeChunks evs).flatten

/-- The final content of the output file, given its content `pre` before
the run: opening with mode `'w'` truncates, so the file changes exactly
when the run opened it. -/
def finalOutput (pre : List Char) (evs : List Event) : List Char :=
  if Event.openOut ∈ evs then outputOf evs else pre

/-! ## Message builders (the code's f-strings) -/

def headerTail : List Char := "-------------\n".toList

def sep2 : List Char := "\n\n".toList

def warnLine : List Char := "\n[Warning: File read with latin-1 encoding]\n".toList

def processingMsg (rel : List Char) : List Char :=
  "Processing: ".toList ++ rel

def latinWarnMsg (rel : List Char) : List Char :=
  "Warning: ".toList ++ rel ++ " read with latin-1 due to UTF-8 decoding error.".toList

def readErrMarker (rel err : List Char) : List Char :=
  "\n[Error: Unable to read file ".toList ++ rel ++ " - ".toList ++ err ++ "]\n".toList

def readErrLog (rel err : List Char) : List Char :=
  "Read error ".toList ++ rel ++ ": ".toList ++ err

def procErrMarker (rel err : List Char) : List Char :=
  "\n[Error: Unable to process file ".toList ++ rel ++ " - ".toList ++ err ++ "]\n".toList

def procErrLog (rel err : List Char) : List Char :=
  "Processing error ".toList ++ rel ++ ": ".toList ++ err

def dirNotFoundMsg (root : List Char) : List Char :=
  "Error: Directory '".toList ++ root ++ "' not found.".toList

def noExtsMsg : List Char := "Error: No valid file extensions provided.".toList

def noFilesMsg (ext root : List Char) : List Char :=
  "No files with extension(s) ".toList ++ ext ++ " found in '".toList ++ root ++ "'.".toList

def outerErrMsg (e : List Char) : List Char :=
  "Error occurred while writing to output file: ".toList ++ e

def successMsg (n : Nat) (out : List Char) : List Char :=
  "\nSuccessfully collected content from ".toList ++ (toString n).toList
    ++ " files to '".toList ++ out ++ "'".toList

/-! ## The writer: `outfile.write` with a failure budget -/

/-- One `outfile.write(s)` call: with budget `none` it always succeeds;
with budget `some 0` it raises (message `err`, no event, budget
unchanged); with `some (n+1)` it succeeds and decrements the budget. -/
def tryWrite (b : Option Nat) (err s : List Char) :
    List Event × Except (List Char) (Option Nat) :=
  match b with
  | none => ([.write s], .ok none)
  | some 0 => ([], .error err)
  | some (n + 1) => ([.write s], .ok (some n))

/-- The `except UnicodeDecodeError` handler's inner `except Exception as
e_fallback` branch: write the read-error marker (a raise here propagates
to the outer handler), then log the read error. -/
def latinHandler (env : Env) (rel e : List Char) (b : Option Nat)
    (pre : List Event) : List Event × Except (List Char) (Option Nat) :=
  match tryWrite b env.writeErr (readErrMarker rel e) with
  | (ev2, .ok b2) => (pre ++ ev2 ++ [.log (readErrLog rel e)], .ok b2)
  | (ev2, .error e2) => (pre ++ ev2, .error e2)

/-- The content phase of one file (code lines 70–88): try to read as
UTF-8 and write the content; on `UnicodeDecodeError` retry as Latin-1,
writing a warning line and logging a warning; per-file failures write an
inline error marker and a log line and are non-fatal, but a raise while
writing the marker itself propagates outward. -/
def handleRead (env : Env) (rel : List Char) (r : ReadResult)
    (b : Option Nat) : List Event × Except (List Char) (Option Nat) :=
  match r with
  | .utf8 c =>
    match tryWrite b env.writeErr c with
    | (ev, .ok b1) => (ev, .ok b1)
    | (ev, .error e) =>
      match tryWrite b env.writeErr (procErrMarker rel e) with
      | (ev2, .ok b2) => (ev ++ ev2 ++ [.log (procErrLog rel e)], .ok b2)
      | (ev2, .error e2) => (ev ++ ev2, .error e2)
  | .latin1 c =>
    match tryWrite b env.writeErr c with
    | (ev, .error e) => latinHandler env rel e b ev
    | (ev, .ok b1) =>
      match tryWrite b1 env.writeErr warnLine with
      | (ev2, .error e) => latinHandler env rel e b1 (ev ++ ev2)
      | (ev2, .ok b2) => (ev ++ ev2 ++ [.log (latinWarnMsg rel)], .ok b2)
  | .latin1Fail err => latinHandler env rel err b []
  | .otherFail err =>
    match tryWrite b env.writeErr (procErrMarker rel err) with
    | (ev2, .ok b2) => (ev2 ++ [.log (procErrLog rel err)], .ok b2)
    | (ev2, .error e2) => (ev2, .error e2)

/-- One iteration of the per-file loop body, after the progress callback:
write the header line, log `Processing: <rel>`, run the content phase,
write the two-newline separator.  Any uncaught raise aborts with the
exception message. -/
def processOne (env : Env) (f : FileEntry) (b : Option Nat) :
    List Event × Except (List Char) (Option Nat) :=
  match tryWrite b env.writeErr (f.relPath ++ headerTail) with
  | (ev1, .error e) => (ev1, .error e)
  | (ev1, .ok b1) =>
    match handleRead env f.relPath f.read b1 with
    | (ev3, .error e) => (ev1 ++ [.log (processingMsg f.relPath)] ++ ev3, .error e)
    | (ev3, .ok b3) =>
      match tryWrite b3 env.writeErr sep2 with
      | (ev4, r4) =>
        (ev1 ++ [.log (processingMsg f.relPath)] ++ ev3 ++ ev4, r4)

/-- The per-file loop (code lines 59–90): for the `i`-th file (1-based)
first emit `progress_callback(int(processed / total * 100))`, then run
the loop body; a raise aborts the remaining files. -/
def processFiles (env : Env) (total : Nat) :
    List FileEntry → Nat → Option Nat → List Event × Except (List Char) (Option Nat)
  | [], _, b => ([], .ok b)
  | f :: fs, i, b =>
    let pe : List Event := [.progress (Int.ofNat (i * 100 / total))]
    match processOne env f b with
    | (ev, .error e) => (pe ++ ev, .error e)
    | (ev, .ok b1) =>
      match processFiles env total fs (i + 1) b1 with
      | (evr, r) => (pe ++ ev ++ evr, r)

/-- The pre-scan (code lines 42–46): the files under the root whose
filename ends with one of the target extensions, in traversal order. -/
def matchingFiles (env : Env) (exts : List (List Char)) : List FileEntry :=
  env.files.filter fun f => exts.any fun e => e.isSuffixOf f.name

/-- The full routine `collect_files_content_gui(root_dir, output_file,
extensions_str, log_callback, progress_callback)`, as the list of events
it produces. -/
def collect (env : Env) (rootDir outputFile extStr : List Char) : List Event :=
  if env.isdir then
    let extensions := cleanExtensions extStr
    if extensions = [] then
      [.log noExtsMsg, .progress (-1)]
    else
      let files := matchingFiles env (extensions.map normDot)
      if files.length = 0 then
        [.log (noFilesMsg extStr rootDir), .progress 100]
      else if env.openOk then
        match processFiles env files.length files 1 env.budget with
        | (evs, .ok _) =>
          .openOut :: evs ++ [.log (successMsg files.length outputFile), .progress 100]
        | (evs, .error e) =>
          .openOut :: evs ++ [.log (outerErrMsg e), .progress (-1)]
      else
        [.log (outerErrMsg env.openErr), .progress (-1)]
  else
    [.log (dirNotFoundMsg rootDir), .progress (-1)]

/-! ## Derived per-file trace shapes (runs with no write failure) -/

/-- The events of the content phase of one file when no write fails. -/
def contentEvs (rel : List Char) : ReadResult → List Event
  | .utf8 c => [.write c]
  | .latin1 c => [.write c, .write warnLine, .log (latinWarnMsg rel)]
  | .latin1Fail e => [.write (readErrMarker rel e), .log (readErrLog rel e)]
  | .otherFail e => [.write (procErrMarker rel e), .log (procErrLog rel e)]

/-- The events of one loop-body iteration when no write fails: header
write, processing log, content events, separator write. -/
def fileBody (f : FileEntry) : List Event :=
  .write (f.relPath ++ headerTail) :: .log (processingMsg f.relPath)
    :: (contentEvs f.relPath f.read ++ [.write sep2])

/-- The full event segment of the `i`-th file (1-based) out of `total`
when no write fails: the progress callback comes first, then the loop
body. -/
def fileSegment (total i : Nat) (f : FileEntry) : List Event :=
  .progress (Int.ofNat (i * 100 / total)) :: fileBody f

/-- The concatenated segments of a file list, numbering from `i`. -/
def segsFrom (total : Nat) : Nat → List FileEntry → List Event
  | _, [] => []
  | i, f :: fs => fileSegment total i f ++ segsFrom total (i + 1) fs

/-! ## Concrete environments used as test inputs -/

def rootR : List Char := "R".toList

def outO : List Char := "out.txt".toList

def extTxt : List Char := "txt".toList

/-- A root holding exactly one ASCII file `a.txt` with content `hello`. -/
def envOne : Env :=
  ⟨true, [⟨"a.txt".toList, "a.txt".toList, .utf8 "hello".toList⟩], true, [], [], none⟩

/-- A root holding three matching UTF-8 files. -/
def envThree : Env :=
  ⟨true,
   [⟨"a.txt".toList, "a.txt".toList, .utf8 "A".toList⟩,
    ⟨"b.txt".toList, "b.txt".toList, .utf8 "B".toList⟩,
    ⟨"c.txt".toList, "c.txt".toList, .utf8 "C".toList⟩],
   true, [], "disk full".toList, none⟩

/-- The same three files, but the fourth `outfile.write` call raises
(disk full): the run fails in the middle of the second file. -/
def envMid : Env := { envThree with budget := some 3 }

/-- A file that decodes only as Latin-1, with content `abc`. -/
def fileL : FileEntry := ⟨"l.txt".toList, "l.txt".toList, .latin1 "abc".toList⟩

/-- A plain UTF-8 file with content `B`. -/
def fileB : FileEntry := ⟨"b.txt".toList, "b.txt".toList, .utf8 "B".toList⟩

/-- A root whose first file decodes only as Latin-1 and whose second is
plain UTF-8. -/
def envLatin : Env := ⟨true, [fileL, fileB], true, [], [], none⟩

/-- The `i`-th of 101 numbered matching files. -/
def mkNumEntry (i : Nat) : FileEntry :=
  ⟨(toString i).toList ++ ".txt".toList, (toString i).toList ++ ".txt".toList, .utf8 []⟩

/-- A root holding 101 matching files. -/
def env101 : Env :=
  ⟨true, (List.range 101).map mkNumEntry, true, [], [], none⟩

/-- A valid root holding no files at all. -/
def envEmptyDir : Env := ⟨true, [], true, [], [], none⟩

/-- A root directory that does not exist. -/
def envNoDir : Env := ⟨false, [], true, [], [], none⟩

/-- Concatenation of a token list with pipe separators (the inverse of
`splitPipe` on pipe-free tokens), used to state parsing invariances. -/
def joinPipe : List (List Char) → List Char
  | [] => []
  | [t] => t
  | t :: ts => t ++ '|' :: joinPipe ts

/-! ## Lemmas: runs with no write failure -/

lemma handleRead_none (env : Env) (rel : List Char) (r : ReadResult) :
    handleRead env rel r none = (contentEvs rel r, .ok none) := by
  cases r <;> rfl

lemma processOne_none (env : Env) (f : FileEntry) :
    processOne env f none = (fileBody f, .ok none) := by
  rcases f with ⟨rel, name, r⟩
  cases r <;> rfl

lemma processFiles_none (env : Env) (total : Nat) (fs : List FileEntry) :
    ∀ i : Nat, processFiles env total fs i none = (segsFrom total i fs, .ok none) := by
  induction fs with
  | nil => intro i; rfl
  | cons f fs ih =>
    intro i
    simp only [processFiles, processOne_none, ih, segsFrom, fileSegment]
    rfl

/-- The trace of a fully successful run: the output file is opened, each
matching file contributes its segment, then the success log and the
final progress 100. -/
lemma collect_ok_trace (env : Env) (r o e : List Char)
    (hdir : env.isdir = true) (hext : cleanExtensions e ≠ [])
    (hfe : matchingFiles env (parseExtensions e) ≠ [])
    (hopen : env.openOk = true) (hb : env.budget = none) :
    collect env r o e
      = .openOut
          :: segsFrom (matchingFiles env (parseExtensions e)).length 1
              (matchingFiles env (parseExtensions e))
        ++ [.log (successMsg (matchingFiles env (parseExtensions e)).length o),
            .progress 100] := by
  have hlen : ¬ (matchingFiles env ((cleanExtensions e).map normDot)).length = 0 := by
    simpa [parseExtensions, List.length_eq_zero] using hfe
  simp only [collect, hdir, if_true, hext, if_false, hlen, hopen, hb,
    processFiles_none, parseExtensions]

/-! ## Lemmas: progress values -/

lemma progressValues_append (l₁ l₂ : List Event) :
    progressValues (l₁ ++ l₂) = progressValues l₁ ++ progressValues l₂ := by
  simp [progressValues, List.filterMap_append]

lemma progressValues_nil : progressValues [] = [] := rfl

lemma progressValues_cons_progress (v : Int) (l : List Event) :
    progressValues (.progress v :: l) = v :: progressValues l := rfl

lemma progressValues_cons_log (m : List Char) (l : List Event) :
    progressValues (.log m :: l) = progressValues l := rfl

lemma progressValues_cons_write (s : List Char) (l : List Event) :
    progressValues (.write s :: l) = progressValues l := rfl

lemma progressValues_cons_openOut (l : List Event) :
    progressValues (.openOut :: l) = progressValues l := rfl

lemma progressValues_fileBody (f : FileEntry) :
    progressValues (fileBody f) = [] := by
  rcases f with ⟨rel, name, r⟩
  cases r <;> rfl

lemma progressValues_fileSegment (total i : Nat) (f : FileEntry) :
    progressValues (fileSegment total i f) = [Int.ofNat (i * 100 / total)] := by
  rw [fileSegment, progressValues_cons_progress, progressValues_fileBody]

lemma range_map_shift (total i k : Nat) :
    (List.range (k + 1)).map (fun j => Int.ofNat ((i + j) * 100 / total))
      = Int.ofNat (i * 100 / total)
          :: (List.range k).map (fun j => Int.ofNat ((i + 1 + j) * 100 / total)) := by
  rw [List.range_succ_eq_map]
  simp only [List.map_cons, List.map_map, Nat.add_zero]
  refine congrArg₂ _ rfl ?_
  refine List.map_congr_left fun j _ => ?_
  have h : i + (j + 1) = i + 1 + j := by omega
  simp [Function.comp, Nat.succ_eq_add_one, h]

lemma progressValues_segsFrom (total : Nat) (fs : List FileEntry) :
    ∀ i : Nat,
      progressValues (segsFrom total i fs)
        = (List.range fs.length).map (fun j => Int.ofNat ((i + j) * 100 / total)) := by
  induction fs with
  | nil => intro i; rfl
  | cons f fs ih =>
    intro i
    simp only [segsFrom, progressValues_append, progressValues_fileSegment,
      ih (i + 1), List.length_cons, range_map_shift, List.singleton_append]

lemma segsFrom_append (total : Nat) (l₁ l₂ : List FileEntry) :
    ∀ i : Nat,
      segsFrom total i (l₁ ++ l₂)
        = segsFrom total i l₁ ++ segsFrom total (i + l₁.length) l₂ := by
  induction l₁ with
  | nil => intro i; simp [segsFrom]
  | cons f fs ih =>
    intro i
    have h : i + 1 + fs.length = i + (fs.length + 1) := by omega
    simp only [List.cons_append, segsFrom, List.append_eq, ih (i + 1),
      List.length_cons, List.append_assoc, h]

/-! ## Lemmas: runs with an arbitrary write budget -/

lemma progressValues_processOne (env : Env) (f : FileEntry) (b : Option Nat) :
    progressValues (processOne env f b).1 = [] := by
  rcases f with ⟨rel, name, r⟩
  rcases b with _ | (_ | (_ | (_ | (_ | (_ | k))))) <;> cases r <;> rfl

lemma processFiles_shape (env : Env) (total : Nat) (fs : List FileEntry) :
    ∀ (i : Nat) (b : Option Nat),
      ∃ k, k ≤ fs.length ∧
        progressValues (processFiles env total fs i b).1
          = (List.range k).map (fun j => Int.ofNat ((i + j) * 100 / total)) ∧
        (∀ b', (processFiles env total fs i b).2 = .ok b' → k = fs.length) := by
  induction fs with
  | nil =>
    intro i b
    exact ⟨0, Nat.le_refl 0, rfl, fun _ _ => rfl⟩
  | cons f fs ih =>
    intro i b
    rcases h1 : processOne env f b with ⟨ev, r1⟩
    have hev : progressValues ev = [] := by
      have h := progressValues_processOne env f b
      rw [h1] at h
      exact h
    cases r1 with
    | error err =>
      refine ⟨1, by simp only [List.length_cons]; omega, ?_, ?_⟩
      · simp only [processFiles, h1]
        rw [progressValues_append, hev, progressValues_cons_progress,
          progressValues_nil]
        simp [List.range_succ]
      · intro b' hb'
        simp only [processFiles, h1] at hb'
        exact Except.noConfusion hb'
    | ok b1 =>
      rcases h2 : processFiles env total fs (i + 1) b1 with ⟨evr, r2⟩
      obtain ⟨k, hk, hshape, hok⟩ := ih (i + 1) b1
      rw [h2] at hshape hok
      have hshape' : progressValues evr
          = (List.range k).map (fun j => Int.ofNat ((i + 1 + j) * 100 / total)) := hshape
      refine ⟨k + 1, by simp only [List.length_cons]; omega, ?_, ?_⟩
      · simp only [processFiles, h1, h2]
        rw [progressValues_append, progressValues_append, hev,
          progressValues_cons_progress, progressValues_nil, hshape',
          range_map_shift, List.append_nil, List.singleton_append]
      · intro b' hb'
        simp only [processFiles, h1, h2] at hb'
        have hkl : k = fs.length := hok b' hb'
        simp only [List.length_cons, hkl]

/-! ## Lemmas: monotone chains and the overall trace shape -/

lemma chain_le_range_map (k : Nat) (g : Nat → Int) (c : Int)
    (hg : ∀ j, g j ≤ g (j + 1)) (hc : ∀ j, j < k → g j ≤ c) :
    List.Chain' (fun a b => a ≤ b) ((List.range k).map g ++ [c]) := by
  apply List.Pairwise.chain'
  rw [List.pairwise_append]
  refine ⟨?_, List.pairwise_singleton _ _, ?_⟩
  · rw [List.pairwise_map]
    exact (List.pairwise_lt_range k).imp fun hab => monotone_nat_of_le_succ hg hab.le
  · intro a ha b hb
    rw [List.mem_map] at ha
    obtain ⟨j, hj, rfl⟩ := ha
    rw [List.mem_singleton] at hb
    subst hb
    exact hc j (List.mem_range.mp hj)

lemma div_hundred_le (n j : Nat) (hn : n ≠ 0) (hj : j < n) :
    (1 + j) * 100 / n ≤ 100 := by
  have h1 : (1 + j) * 100 ≤ n * 100 := Nat.mul_le_mul_right 100 (by omega)
  have h2 : (1 + j) * 100 / n ≤ n * 100 / n := Nat.div_le_div_right h1
  rwa [Nat.mul_comm n 100, Nat.mul_div_cancel 100 (Nat.pos_of_ne_zero hn)] at h2

lemma div_hundred_mono (n j : Nat) :
    (1 + j) * 100 / n ≤ (1 + (j + 1)) * 100 / n :=
  Nat.div_le_div_right (Nat.mul_le_mul_right 100 (by omega))

/-- Every run's trace ends with one log line followed by one final
progress event, the final progress value is either the sentinel or
exactly 100, every earlier progress value is a natural number at most
100, and a run that ends at 100 has a non-decreasing progress
sequence. -/
lemma collect_shape (env : Env) (r o e : List Char) :
    ∃ (t : List Event) (m : List Char) (v : Int),
      collect env r o e = t ++ [.log m, .progress v] ∧
      (v = -1 ∨ v = 100) ∧
      (∀ w ∈ progressValues t, ∃ x : Nat, w = Int.ofNat x ∧ x ≤ 100) ∧
      (v = 100 → List.Chain' (fun a b => a ≤ b) (progressValues (collect env r o e))) := by
  by_cases hdir : env.isdir = true
  case neg =>
    have hdir' : env.isdir = false := by simpa using hdir
    refine ⟨[], dirNotFoundMsg r, -1, by simp [collect, hdir'], Or.inl rfl, ?_, ?_⟩
    · intro w hw
      rw [progressValues_nil] at hw
      exact absurd hw (List.not_mem_nil w)
    · intro h
      exact absurd h (by decide)
  case pos =>
  by_cases hext : cleanExtensions e = []
  · refine ⟨[], noExtsMsg, -1, by simp [collect, hdir, hext], Or.inl rfl, ?_, ?_⟩
    · intro w hw
      rw [progressValues_nil] at hw
      exact absurd hw (List.not_mem_nil w)
    · intro h
      exact absurd h (by decide)
  · by_cases hfs : (matchingFiles env ((cleanExtensions e).map normDot)).length = 0
    · have hcol : collect env r o e = [.log (noFilesMsg e r), .progress 100] := by
        simp [collect, hdir, hext, hfs]
      refine ⟨[], noFilesMsg e r, 100, by simpa using hcol, Or.inr rfl, ?_, ?_⟩
      · intro w hw
        rw [progressValues_nil] at hw
        exact absurd hw (List.not_mem_nil w)
      · intro _
        rw [hcol, progressValues_cons_log, progressValues_cons_progress,
          progressValues_nil]
        exact List.chain'_singleton _
    · by_cases hopen : env.openOk = true
      case neg =>
        have hopen' : env.openOk = false := by simpa using hopen
        refine ⟨[], outerErrMsg env.openErr, -1,
          by simp [collect, hdir, hext, hfs, hopen'], Or.inl rfl, ?_, ?_⟩
        · intro w hw
          rw [progressValues_nil] at hw
          exact absurd hw (List.not_mem_nil w)
        · intro h
          exact absurd h (by decide)
      case pos =>
        have hn : (matchingFiles env ((cleanExtensions e).map normDot)).length ≠ 0 := hfs
        rcases hpf : processFiles env
            (matchingFiles env ((cleanExtensions e).map normDot)).length
            (matchingFiles env ((cleanExtensions e).map normDot)) 1 env.budget
          with ⟨evs, res⟩
        obtain ⟨k, hk, hshape, hok⟩ := processFiles_shape env
          (matchingFiles env ((cleanExtensions e).map normDot)).length
          (matchingFiles env ((cleanExtensions e).map normDot)) 1 env.budget
        rw [hpf] at hshape hok
        have hshape' : progressValues evs
            = (List.range k).map (fun j => Int.ofNat ((1 + j) * 100
                / (matchingFiles env ((cleanExtensions e).map normDot)).length)) := hshape
        have hmem : ∀ w ∈ progressValues (Event.openOut :: evs),
            ∃ x : Nat, w = Int.ofNat x ∧ x ≤ 100 := by
          intro w hw
          rw [progressValues_cons_openOut, hshape', List.mem_map] at hw
          obtain ⟨j, hj, rfl⟩ := hw
          refine ⟨_, rfl, ?_⟩
          exact div_hundred_le _ j hn (by
            have := List.mem_range.mp hj
            omega)
        cases res with
        | ok b' =>
          have hkn : k = (matchingFiles env ((cleanExtensions e).map normDot)).length :=
            hok b' rfl
          have hcol : collect env r o e
              = (Event.openOut :: evs)
                ++ [.log (successMsg
                      (matchingFiles env ((cleanExtensions e).map normDot)).length o),
                    .progress 100] := by
            simp [collect, hdir, hext, hfs, hopen, hpf]
          refine ⟨Event.openOut :: evs, _, 100, hcol, Or.inr rfl, hmem, ?_⟩
          intro _
          rw [hcol, progressValues_append, progressValues_cons_openOut, hshape', hkn,
            progressValues_cons_log, progressValues_cons_progress, progressValues_nil]
          exact chain_le_range_map _ _ _
            (fun j => Int.ofNat_le.mpr (div_hundred_mono _ j))
            (fun j hj => Int.ofNat_le.mpr (div_hundred_le _ j hn hj))
        | error em =>
          have hcol : collect env r o e
              = (Event.openOut :: evs) ++ [.log (outerErrMsg em), .progress (-1)] := by
            simp [collect, hdir, hext, hfs, hopen, hpf]
          refine ⟨Event.openOut :: evs, _, -1, hcol, Or.inl rfl, hmem, ?_⟩
          intro h
          exact absurd h (by decide)

/-! ## Lemmas: extension parsing -/

lemma splitPipe_no_pipe (t : List Char) (h : '|' ∉ t) : splitPipe t = [t] := by
  induction t with
  | nil => rfl
  | cons c cs ih =>
    have hc : ¬ c = '|' := fun hc => h (hc ▸ List.mem_cons_self c cs)
    have hcs : '|' ∉ cs := fun hm => h (List.mem_cons_of_mem c hm)
    simp only [splitPipe, if_neg hc, ih hcs]

lemma splitPipe_append_pipe (t r : List Char) (h : '|' ∉ t) :
    splitPipe (t ++ '|' :: r) = t :: splitPipe r := by
  induction t with
  | nil => simp [splitPipe]
  | cons c cs ih =>
    have hc : ¬ c = '|' := fun hc => h (hc ▸ List.mem_cons_self c cs)
    have hcs : '|' ∉ cs := fun hm => h (List.mem_cons_of_mem c hm)
    simp only [List.cons_append, splitPipe, if_neg hc, List.append_eq, ih hcs]

lemma splitPipe_joinPipe (ts : List (List Char)) (hne : ts ≠ [])
    (h : ∀ t ∈ ts, '|' ∉ t) :
    splitPipe (joinPipe ts) = ts := by
  induction ts with
  | nil => exact absurd rfl hne
  | cons t ts ih =>
    cases ts with
    | nil =>
      exact splitPipe_no_pipe t (h t (List.mem_cons_self t []))
    | cons u us =>
      have hju : joinPipe (t :: u :: us) = t ++ '|' :: joinPipe (u :: us) := rfl
      rw [hju, splitPipe_append_pipe t _ (h t (List.mem_cons_self t _)),
        ih (by simp) (fun x hx => h x (List.mem_cons_of_mem t hx))]

lemma dropWhile_append_all (p : Char → Bool) (w l : List Char)
    (h : ∀ c ∈ w, p c = true) :
    (w ++ l).dropWhile p = l.dropWhile p := by
  induction w with
  | nil => rfl
  | cons c cs ih =>
    simp only [List.cons_append, List.dropWhile_cons,
      h c (List.mem_cons_self c cs), if_true]
    exact ih (fun x hx => h x (List.mem_cons_of_mem c hx))

lemma dropWhile_all_eq_nil (p : Char → Bool) (w : List Char)
    (h : ∀ c ∈ w, p c = true) : w.dropWhile p = [] := by
  have h1 : (w ++ []).dropWhile p = List.dropWhile p [] := dropWhile_append_all p w [] h
  simpa using h1

lemma dropWhile_none (p : Char → Bool) (l : List Char)
    (h : ∀ c ∈ l, p c = false) : l.dropWhile p = l := by
  cases l with
  | nil => rfl
  | cons c cs =>
    simp only [List.dropWhile_cons, h c (List.mem_cons_self c cs)]
    simp

lemma pyStrip_no_space (t : List Char) (h : ∀ c ∈ t, isPySpace c = false) :
    pyStrip t = t := by
  rw [pyStrip, dropWhile_none _ t h, dropWhile_none, List.reverse_reverse]
  intro c hc
  exact h c (List.mem_reverse.mp hc)

lemma pyStrip_pad (wl t wr : List Char)
    (hl : ∀ c ∈ wl, isPySpace c = true) (hr : ∀ c ∈ wr, isPySpace c = true)
    (ht : ∀ c ∈ t, isPySpace c = false) :
    pyStrip (wl ++ t ++ wr) = t := by
  rw [pyStrip, List.append_assoc, dropWhile_append_all _ wl _ hl]
  cases t with
  | nil =>
    simp only [List.nil_append]
    rw [dropWhile_all_eq_nil _ wr hr]
    rfl
  | cons c cs =>
    have hc : isPySpace c = false := ht c (List.mem_cons_self c cs)
    simp only [List.cons_append, List.dropWhile_cons, hc, Bool.false_eq_true,
      if_false, List.reverse_cons]
    rw [List.reverse_append]
    rw [List.append_assoc, dropWhile_append_all _ wr.reverse _
      (fun x hx => hr x (List.mem_reverse.mp hx))]
    rw [dropWhile_none]
    · simp
    · intro x hx
      rcases List.mem_append.mp hx with hx1 | hx2
      · exact ht x (List.mem_cons_of_mem c (List.mem_reverse.mp hx1))
      · rw [List.mem_singleton] at hx2
        exact hx2 ▸ hc

lemma parseExtensions_joinPipe (ts : List (List Char))
    (h : ∀ t ∈ ts, '|' ∉ t ∧ pyStrip t ≠ []) :
    parseExtensions (joinPipe ts) = ((ts.map pyStrip).map normDot) := by
  cases hts : ts with
  | nil => rfl
  | cons u us =>
    rw [← hts]
    have hne : ts ≠ [] := by rw [hts]; exact List.cons_ne_nil u us
    rw [parseExtensions, cleanExtensions,
      splitPipe_joinPipe ts hne (fun t htm => (h t htm).1)]
    congr 1
    rw [List.filter_eq_self]
    intro a ha
    rw [List.mem_map] at ha
    obtain ⟨t, htm, rfl⟩ := ha
    simpa using (h t htm).2

/-! ## Claim theorems -/

/-- C1: for a run whose root contains exactly one regular file `a.txt`
with content `hello` and extension filter `txt`, the output file content
is exactly the header line (relative path plus thirteen hyphens and a
newline), the content `hello`, then two newlines; the run ends with a
final progress event of 100 and never emits the error sentinel. -/
theorem C1_round_trip :
    outputOf (collect envOne rootR outO extTxt)
        = "a.txt-------------\nhello\n\n".toList
      ∧ (collect envOne rootR outO extTxt).getLast? = some (.progress 100)
      ∧ (-1 : Int) ∉ progressValues (collect envOne rootR outO extTxt) := by
  decide

/-- C2 (counterexample): the claim says the i-th per-file progress value
is round(i/n*100), so for three files the second value would be 67; the
code truncates, and the second value is 66. -/
theorem C2_cex_truncation_not_rounding :
    (progressValues (collect envThree rootR outO extTxt))[1]? = some 66
      ∧ (progressValues (collect envThree rootR outO extTxt))[1]? ≠ some 67 := by
  decide

/-- C2 (amended): for every successful run over a non-empty FileTask of
n files, the progress values are exactly the per-file values
int(i/n*100) (integer truncation of exact division) for i = 1..n,
followed by the final 100; the last per-file value is exactly 100. -/
theorem C2_perfile_progress_values (env : Env) (r o e : List Char)
    (hdir : env.isdir = true) (hext : cleanExtensions e ≠ [])
    (hfe : matchingFiles env (parseExtensions e) ≠ [])
    (hopen : env.openOk = true) (hb : env.budget = none) :
    progressValues (collect env r o e)
        = ((List.range (matchingFiles env (parseExtensions e)).length).map
            (fun j => Int.ofNat ((1 + j) * 100
              / (matchingFiles env (parseExtensions e)).length)))
          ++ [100]
      ∧ ((List.range (matchingFiles env (parseExtensions e)).length).map
            (fun j => Int.ofNat ((1 + j) * 100
              / (matchingFiles env (parseExtensions e)).length))).getLast?
          = some 100 := by
  have hn : (matchingFiles env (parseExtensions e)).length ≠ 0 := by
    simpa [List.length_eq_zero] using hfe
  constructor
  · rw [collect_ok_trace env r o e hdir hext hfe hopen hb, List.cons_append,
      progressValues_cons_openOut, progressValues_append, progressValues_segsFrom,
      progressValues_cons_log, progressValues_cons_progress, progressValues_nil]
  · rcases Nat.exists_eq_succ_of_ne_zero hn with ⟨m, hm⟩
    rw [hm, List.range_succ, List.map_append, List.map_cons, List.map_nil,
      List.getLast?_concat]
    have h1 : (1 + m) * 100 / (m + 1) = 100 := by
      rw [Nat.add_comm 1 m, Nat.mul_comm, Nat.mul_div_cancel 100 (by omega)]
    rw [h1]
    rfl

/-- C2 (witness): the amended statement evaluated on a concrete run with
three files. -/
theorem C2_perfile_progress_values_witness :
    progressValues (collect envThree rootR outO extTxt)
        = ((List.range (matchingFiles envThree (parseExtensions extTxt)).length).map
            (fun j => Int.ofNat ((1 + j) * 100
              / (matchingFiles envThree (parseExtensions extTxt)).length)))
          ++ [100] :=
  (C2_perfile_progress_values envThree rootR outO extTxt rfl (by decide)
    (by decide) rfl rfl).1

/-- C3 (counterexample): the claim says a file's progress is emitted only
after the file has been processed; in the code the first progress event
precedes the first write to the output file. -/
theorem C3_cex_progress_before_write :
    (collect envOne rootR outO extTxt).findIdx Event.isProgress
        < (collect envOne rootR outO extTxt).findIdx Event.isWrite
      ∧ (collect envOne rootR outO extTxt).findIdx Event.isWrite
        < (collect envOne rootR outO extTxt).length := by
  decide

/-- C3 (amended): in a fully successful run the per-file order is: the
file's progress event first, then the header write, then the log line
`Processing: <relative_path>`, then the content (or warning/error
marker) writes, then the two-newline separator (see `fileSegment`,
`fileBody` and `contentEvs`). -/
theorem C3_perfile_event_order (env : Env) (r o e : List Char)
    (hdir : env.isdir = true) (hext : cleanExtensions e ≠ [])
    (hfe : matchingFiles env (parseExtensions e) ≠ [])
    (hopen : env.openOk = true) (hb : env.budget = none) :
    collect env r o e
      = .openOut
          :: segsFrom (matchingFiles env (parseExtensions e)).length 1
              (matchingFiles env (parseExtensions e))
        ++ [.log (successMsg (matchingFiles env (parseExtensions e)).length o),
            .progress 100] :=
  collect_ok_trace env r o e hdir hext hfe hopen hb

/-- C3 (witness): the amended order evaluated on a concrete one-file
run. -/
theorem C3_perfile_event_order_witness :
    collect envOne rootR outO extTxt
      = .openOut
          :: segsFrom (matchingFiles envOne (parseExtensions extTxt)).length 1
              (matchingFiles envOne (parseExtensions extTxt))
        ++ [.log (successMsg (matchingFiles envOne (parseExtensions extTxt)).length outO),
            .progress 100] :=
  C3_perfile_event_order envOne rootR outO extTxt rfl (by decide) (by decide) rfl rfl

/-- C4: if a run never emits the sentinel -1 then its progress sequence
is non-decreasing, and once -1 is emitted it is the last progress value
of the run. -/
theorem C4_monotone_until_sentinel (env : Env) (r o e : List Char) :
    (¬ (-1 : Int) ∈ progressValues (collect env r o e) →
      List.Chain' (fun a b => a ≤ b) (progressValues (collect env r o e)))
    ∧ ((-1 : Int) ∈ progressValues (collect env r o e) →
      (progressValues (collect env r o e)).getLast? = some (-1)) := by
  obtain ⟨t, m, v, hcol, hv, hmem, hchain⟩ := collect_shape env r o e
  have hps : progressValues (collect env r o e) = progressValues t ++ [v] := by
    rw [hcol, progressValues_append, progressValues_cons_log,
      progressValues_cons_progress, progressValues_nil]
  have hnotneg : (-1 : Int) ∉ progressValues t := by
    intro hmem1
    obtain ⟨x, hx, _⟩ := hmem (-1) hmem1
    rw [Int.ofNat_eq_natCast] at hx
    omega
  constructor
  · intro hno
    have hv100 : v = 100 := by
      rcases hv with h | h
      · exact absurd (by
          rw [hps, h]
          exact List.mem_append_right _ (List.mem_singleton.mpr rfl)) hno
      · exact h
    exact hchain hv100
  · intro hyes
    have hv1 : v = -1 := by
      rcases hv with h | h
      · exact h
      · exfalso
        rw [hps, h] at hyes
        rcases List.mem_append.mp hyes with h1 | h2
        · exact hnotneg h1
        · rw [List.mem_singleton] at h2
          exact absurd h2 (by decide)
    rw [hps, hv1, List.getLast?_concat]

/-- C4 (witness): a sentinel-free three-file run has a non-decreasing
progress sequence, and a run failing mid-way ends its progress sequence
with -1. -/
theorem C4_monotone_until_sentinel_witness :
    List.Chain' (fun a b => a ≤ b) (progressValues (collect envThree rootR outO extTxt))
      ∧ (progressValues (collect envMid rootR outO extTxt)).getLast? = some (-1) :=
  ⟨(C4_monotone_until_sentinel envThree rootR outO extTxt).1 (by decide),
   (C4_monotone_until_sentinel envMid rootR outO extTxt).2 (by decide)⟩

/-- C5: a run with a valid root, a non-empty extension set and no
matching file emits exactly one log line naming the filter and the root
and one progress event 100, and returns without opening the output file,
whose prior content is unchanged. -/
theorem C5_empty_filetask (env : Env) (r o e pre : List Char)
    (hdir : env.isdir = true) (hext : cleanExtensions e ≠ [])
    (hfe : matchingFiles env (parseExtensions e) = []) :
    collect env r o e = [.log (noFilesMsg e r), .progress 100]
      ∧ finalOutput pre (collect env r o e) = pre := by
  have hlen : (matchingFiles env ((cleanExtensions e).map normDot)).length = 0 := by
    rw [show (cleanExtensions e).map normDot = parseExtensions e from rfl, hfe]
    rfl
  have hcol : collect env r o e = [.log (noFilesMsg e r), .progress 100] := by
    simp [collect, hdir, hext, hlen]
  refine ⟨hcol, ?_⟩
  rw [finalOutput, if_neg]
  rw [hcol]
  simp

/-- C5 (witness): the empty-run behaviour on a concrete valid empty
root, with non-empty prior output content. -/
theorem C5_empty_filetask_witness :
    collect envEmptyDir rootR outO extTxt
        = [.log (noFilesMsg extTxt rootR), .progress 100]
      ∧ finalOutput "prev".toList (collect envEmptyDir rootR outO extTxt)
        = "prev".toList :=
  C5_empty_filetask envEmptyDir rootR outO extTxt "prev".toList rfl (by decide) (by decide)

/-- C6: if the root directory is invalid, the run emits exactly one
error log line and one sentinel progress event and returns, with no scan
performed, no entries produced and the output file untouched. -/
theorem C6_invalidRoot (env : Env) (r o e pre : List Char)
    (hdir : env.isdir = false) :
    collect env r o e = [.log (dirNotFoundMsg r), .progress (-1)]
      ∧ finalOutput pre (collect env r o e) = pre := by
  have hcol : collect env r o e = [.log (dirNotFoundMsg r), .progress (-1)] := by
    simp [collect, hdir]
  refine ⟨hcol, ?_⟩
  rw [finalOutput, if_neg]
  rw [hcol]
  simp

/-- C6 (witness): the invalid-root behaviour on a concrete environment,
with non-empty prior output content. -/
theorem C6_invalidRoot_witness :
    collect envNoDir rootR outO extTxt
        = [.log (dirNotFoundMsg rootR), .progress (-1)]
      ∧ finalOutput "prev".toList (collect envNoDir rootR outO extTxt)
        = "prev".toList :=
  C6_invalidRoot envNoDir rootR outO extTxt "prev".toList rfl

/-- C7: extension parsing discards empty tokens, trims whitespace and
ensures a leading dot; hence for every list of bare tokens (non-empty,
not already dotted, free of whitespace and pipes) parsing is invariant
under adding a leading dot to each token and under surrounding each
token with whitespace, and in particular `cs|txt` and `.cs|.txt` parse
to the same suffix list `[.cs, .txt]`. -/
theorem C7_parsing_normalization (ts : List (List Char)) (wl wr : List Char)
    (h : ∀ t ∈ ts, t ≠ [] ∧ t.head? ≠ some '.'
          ∧ ∀ c ∈ t, isPySpace c = false ∧ c ≠ '|')
    (hwl : ∀ c ∈ wl, isPySpace c = true ∧ c ≠ '|')
    (hwr : ∀ c ∈ wr, isPySpace c = true ∧ c ≠ '|') :
    parseExtensions (joinPipe (ts.map (fun t => '.' :: t)))
        = parseExtensions (joinPipe ts)
      ∧ parseExtensions (joinPipe (ts.map (fun t => wl ++ t ++ wr)))
        = parseExtensions (joinPipe ts)
      ∧ parseExtensions "cs|txt".toList = parseExtensions ".cs|.txt".toList
      ∧ parseExtensions "cs|txt".toList = [".cs".toList, ".txt".toList] := by
  have hbase : parseExtensions (joinPipe ts) = (ts.map pyStrip).map normDot := by
    apply parseExtensions_joinPipe
    intro t htm
    obtain ⟨hne, hhd, hch⟩ := h t htm
    have hstript : pyStrip t = t := pyStrip_no_space t (fun c hc => (hch c hc).1)
    refine ⟨fun hmem => (hch '|' hmem).2 rfl, ?_⟩
    rw [hstript]
    exact hne
  have hstrips : ts.map pyStrip = ts := by
    have hcong : ∀ t ∈ ts, pyStrip t = id t := by
      intro t htm
      exact pyStrip_no_space t (fun c hc => ((h t htm).2.2 c hc).1)
    rw [List.map_congr_left hcong, List.map_id]
  have hdotmap : ts.map normDot = ts.map (fun t => '.' :: t) := by
    apply List.map_congr_left
    intro t htm
    rw [normDot, if_neg]
    exact (h t htm).2.1
  refine ⟨?_, ?_, by decide, by decide⟩
  · have hleft : parseExtensions (joinPipe (ts.map (fun t => '.' :: t)))
        = ((ts.map (fun t => '.' :: t)).map pyStrip).map normDot := by
      apply parseExtensions_joinPipe
      intro t htm
      rw [List.mem_map] at htm
      obtain ⟨u, hu, rfl⟩ := htm
      obtain ⟨hne, hhd, hch⟩ := h u hu
      have hchars : ∀ c ∈ '.' :: u, isPySpace c = false := by
        intro c hc
        rcases List.mem_cons.mp hc with h1 | h1
        · subst h1; decide
        · exact (hch c h1).1
      have hstripu : pyStrip ('.' :: u) = '.' :: u := pyStrip_no_space _ hchars
      refine ⟨?_, by rw [hstripu]; exact List.cons_ne_nil _ _⟩
      intro hmem
      rcases List.mem_cons.mp hmem with h1 | h1
      · exact absurd h1 (by decide)
      · exact (hch '|' h1).2 rfl
    have hstrips2 : (ts.map (fun t => '.' :: t)).map pyStrip
        = ts.map (fun t => '.' :: t) := by
      have hcong : ∀ x ∈ ts.map (fun t => '.' :: t), pyStrip x = id x := by
        intro x hx
        rw [List.mem_map] at hx
        obtain ⟨u, hu, rfl⟩ := hx
        apply pyStrip_no_space
        intro c hc
        rcases List.mem_cons.mp hc with h1 | h1
        · subst h1; decide
        · exact (((h u hu).2.2) c h1).1
      rw [List.map_congr_left hcong, List.map_id]
    have hdots : (ts.map (fun t => '.' :: t)).map normDot
        = ts.map (fun t => '.' :: t) := by
      have hcong : ∀ x ∈ ts.map (fun t => '.' :: t), normDot x = id x := by
        intro x hx
        rw [List.mem_map] at hx
        obtain ⟨u, hu, rfl⟩ := hx
        simp [normDot]
      rw [List.map_congr_left hcong, List.map_id]
    rw [hleft, hstrips2, hdots, hbase, hstrips, hdotmap]
  · have hleft : parseExtensions (joinPipe (ts.map (fun t => wl ++ t ++ wr)))
        = ((ts.map (fun t => wl ++ t ++ wr)).map pyStrip).map normDot := by
      apply parseExtensions_joinPipe
      intro t htm
      rw [List.mem_map] at htm
      obtain ⟨u, hu, rfl⟩ := htm
      obtain ⟨hne, hhd, hch⟩ := h u hu
      have hstripu : pyStrip (wl ++ u ++ wr) = u :=
        pyStrip_pad wl u wr (fun c hc => (hwl c hc).1) (fun c hc => (hwr c hc).1)
          (fun c hc => (hch c hc).1)
      refine ⟨?_, by rw [hstripu]; exact hne⟩
      intro hmem
      rcases List.mem_append.mp hmem with h1 | h1
      · rcases List.mem_append.mp h1 with h2 | h2
        · exact (hwl '|' h2).2 rfl
        · exact (hch '|' h2).2 rfl
      · exact (hwr '|' h1).2 rfl
    have hstrips2 : (ts.map (fun t => wl ++ t ++ wr)).map pyStrip = ts := by
      rw [List.map_map]
      have hcong : ∀ u ∈ ts, (pyStrip ∘ fun t => wl ++ t ++ wr) u = id u := by
        intro u hu
        exact pyStrip_pad wl u wr (fun c hc => (hwl c hc).1) (fun c hc => (hwr c hc).1)
          (fun c hc => (((h u hu).2.2) c hc).1)
      rw [List.map_congr_left hcong, List.map_id]
    rw [hleft, hstrips2, hbase, hstrips]

/-- C7 (witness): the invariances evaluated at the token list
`[cs, txt]` with a single space of padding on each side. -/
theorem C7_parsing_normalization_witness :
    parseExtensions (joinPipe (["cs".toList, "txt".toList].map (fun t => '.' :: t)))
        = parseExtensions (joinPipe ["cs".toList, "txt".toList])
      ∧ parseExtensions (joinPipe (["cs".toList, "txt".toList].map
            (fun t => [' '] ++ t ++ [' '])))
        = parseExtensions (joinPipe ["cs".toList, "txt".toList]) := by
  have h := C7_parsing_normalization ["cs".toList, "txt".toList] [' '] [' ']
    (by decide) (by decide) (by decide)
  exact ⟨h.1, h.2.1⟩

/-- C8: a file whose bytes fail UTF-8 but decode as Latin-1 contributes
its Latin-1 content, then the warning marker line, to the output, plus a
warning log line; the preceding and following files and all progress
events are exactly those of a normal run. -/
theorem C8_latin1_fallback (env : Env) (r o e : List Char)
    (pre post : List FileEntry) (f : FileEntry) (c : List Char)
    (hdir : env.isdir = true) (hext : cleanExtensions e ≠ [])
    (hopen : env.openOk = true) (hb : env.budget = none)
    (hsplit : matchingFiles env (parseExtensions e) = pre ++ f :: post)
    (hread : f.read = .latin1 c) :
    collect env r o e
      = (.openOut :: (segsFrom (pre ++ f :: post).length 1 pre
          ++ ([.progress (Int.ofNat ((pre.length + 1) * 100 / (pre ++ f :: post).length)),
               .write (f.relPath ++ headerTail), .log (processingMsg f.relPath),
               .write c, .write warnLine, .log (latinWarnMsg f.relPath), .write sep2]
          ++ segsFrom (pre ++ f :: post).length (pre.length + 2) post)))
        ++ [.log (successMsg (pre ++ f :: post).length o), .progress 100] := by
  have hfe : matchingFiles env (parseExtensions e) ≠ [] := by
    rw [hsplit]
    simp
  have hcol := collect_ok_trace env r o e hdir hext hfe hopen hb
  rw [hsplit] at hcol
  rw [hcol]
  have e1 : 1 + pre.length = pre.length + 1 := by omega
  have e2 : pre.length + 1 + 1 = pre.length + 2 := by omega
  rw [segsFrom_append (pre ++ f :: post).length pre (f :: post) 1, e1]
  have hseg : segsFrom (pre ++ f :: post).length (pre.length + 1) (f :: post)
      = [.progress (Int.ofNat ((pre.length + 1) * 100 / (pre ++ f :: post).length)),
          .write (f.relPath ++ headerTail), .log (processingMsg f.relPath),
          .write c, .write warnLine, .log (latinWarnMsg f.relPath), .write sep2]
        ++ segsFrom (pre ++ f :: post).length (pre.length + 2) post := by
    rw [show segsFrom (pre ++ f :: post).length (pre.length + 1) (f :: post)
        = fileSegment (pre ++ f :: post).length (pre.length + 1) f
          ++ segsFrom (pre ++ f :: post).length (pre.length + 1 + 1) post from rfl,
      e2, fileSegment, fileBody, hread]
    rfl
  rw [hseg]

/-- C8 (witness): the fallback shape evaluated on a concrete run whose
first file is Latin-1 and whose second is UTF-8. -/
theorem C8_latin1_fallback_witness :
    collect envLatin rootR outO extTxt
      = (.openOut :: (segsFrom ([] ++ fileL :: [fileB]).length 1 []
          ++ ([.progress (Int.ofNat (((List.length ([] : List FileEntry)) + 1) * 100
                  / ([] ++ fileL :: [fileB]).length)),
               .write (fileL.relPath ++ headerTail), .log (processingMsg fileL.relPath),
               .write "abc".toList, .write warnLine, .log (latinWarnMsg fileL.relPath),
               .write sep2]
          ++ segsFrom ([] ++ fileL :: [fileB]).length
              ((List.length ([] : List FileEntry)) + 2) [fileB])))
        ++ [.log (successMsg ([] ++ fileL :: [fileB]).length outO), .progress 100] :=
  C8_latin1_fallback envLatin rootR outO extTxt [] [fileB] fileL "abc".toList
    rfl (by decide) rfl rfl (by decide) rfl

/-- C9: no exception escapes: the sentinel is emitted at most once,
every failing run's trace ends with one error log line followed by the
sentinel progress event, every non-failing run ends with the progress
event 100, and on a failure after the output file was opened the partial
output already written remains. -/
theorem C9_failure_containment (env : Env) (pre r o e : List Char) :
    ((progressValues (collect env r o e)).count (-1) ≤ 1)
    ∧ ((-1 : Int) ∈ progressValues (collect env r o e) →
        ∃ (t : List Event) (m : List Char),
          collect env r o e = t ++ [.log m, .progress (-1)])
    ∧ (¬ (-1 : Int) ∈ progressValues (collect env r o e) →
        (collect env r o e).getLast? = some (.progress 100))
    ∧ ((-1 : Int) ∈ progressValues (collect env r o e) →
        Event.openOut ∈ collect env r o e →
        finalOutput pre (collect env r o e) = outputOf (collect env r o e)) := by
  obtain ⟨t, m, v, hcol, hv, hmem, _⟩ := collect_shape env r o e
  have hps : progressValues (collect env r o e) = progressValues t ++ [v] := by
    rw [hcol, progressValues_append, progressValues_cons_log,
      progressValues_cons_progress, progressValues_nil]
  have hnotneg : (-1 : Int) ∉ progressValues t := by
    intro hmem1
    obtain ⟨x, hx, _⟩ := hmem (-1) hmem1
    rw [Int.ofNat_eq_natCast] at hx
    omega
  refine ⟨?_, ?_, ?_, ?_⟩
  · rw [hps, List.count_append]
    have h0 : (progressValues t).count (-1) = 0 := List.count_eq_zero.mpr hnotneg
    have h1 : ([v] : List Int).count (-1) ≤ 1 := List.count_le_length (-1) [v]
    omega
  · intro hyes
    have hv1 : v = -1 := by
      rcases hv with h | h
      · exact h
      · exfalso
        rw [hps, h] at hyes
        rcases List.mem_append.mp hyes with h1 | h2
        · exact hnotneg h1
        · rw [List.mem_singleton] at h2
          exact absurd h2 (by decide)
    exact ⟨t, m, by rw [hcol, hv1]⟩
  · intro hno
    have hv100 : v = 100 := by
      rcases hv with h | h
      · exact absurd (by
          rw [hps, h]
          exact List.mem_append_right _ (List.mem_singleton.mpr rfl)) hno
      · exact h
    rw [hcol, hv100]
    rw [show (t ++ [Event.log m, Event.progress 100])
        = (t ++ [Event.log m]) ++ [Event.progress 100] by simp,
      List.getLast?_concat]
  · intro _ hopen
    rw [finalOutput, if_pos hopen]

/-- C9 (witness): a concrete run that fails mid-way (disk full after
three writes) keeps its partial output, and its trace ends with the
error log and the sentinel. -/
theorem C9_failure_containment_witness :
    (∃ (t : List Event) (m : List Char),
        collect envMid rootR outO extTxt = t ++ [.log m, .progress (-1)])
      ∧ finalOutput "prev".toList (collect envMid rootR outO extTxt)
          = outputOf (collect envMid rootR outO extTxt) :=
  ⟨(C9_failure_containment envMid "prev".toList rootR outO extTxt).2.1 (by decide),
   (C9_failure_containment envMid "prev".toList rootR outO extTxt).2.2.2
     (by decide) (by decide)⟩

/-- C10: every value passed to the progress callback is either the
sentinel -1 or a natural number at most 100; with 101 matching files the
first per-file progress value is 0, so progress 0 does not mean that no
file has been processed. -/
theorem C10_progress_range :
    (∀ (env : Env) (r o e : List Char) (v : Int),
        v ∈ progressValues (collect env r o e) →
          v = -1 ∨ (0 ≤ v ∧ v ≤ 100))
      ∧ (progressValues (collect env101 rootR outO extTxt)).head? = some 0 := by
  constructor
  · intro env r o e v hvmem
    obtain ⟨t, m, w, hcol, hw, hmem, _⟩ := collect_shape env r o e
    have hps : progressValues (collect env r o e) = progressValues t ++ [w] := by
      rw [hcol, progressValues_append, progressValues_cons_log,
        progressValues_cons_progress, progressValues_nil]
    rw [hps] at hvmem
    rcases List.mem_append.mp hvmem with h1 | h2
    · obtain ⟨x, hx, hxle⟩ := hmem v h1
      rw [Int.ofNat_eq_natCast] at hx
      right
      omega
    · rw [List.mem_singleton] at h2
      subst h2
      rcases hw with h | h
      · exact Or.inl h
      · right
        rw [h]
        exact ⟨by decide, by decide⟩
  · decide

/-- C10 (witness): the range property evaluated at a concrete member of
a concrete run's progress sequence. -/
theorem C10_progress_range_witness :
    (33 : Int) = -1 ∨ ((0 : Int) ≤ 33 ∧ (33 : Int) ≤ 100) :=
  C10_progress_range.1 envThree rootR outO extTxt 33 (by decide)

end CollectGui
